import Mathlib

/-!
Shallow embedding of the auction domain core of `auctions-api-rust`:
money (`src/money.rs`), users/errors (`src/domain/core.rs`), bids
(`src/domain/bids.rs`), the timed-ascending state machine
(`src/domain/timed_ascending.rs`), the single-sealed-bid state machine
(`src/domain/single_sealed_bid.rs`), auctions and the bid validator
(`src/domain/auctions.rs`), and the command handler (`src/domain/mod.rs`).

Timestamps (`DateTime<Utc>` / `OffsetDateTime`) are modelled as integers and
`Duration` as an integer number of seconds: the code only compares timestamps
and adds durations to them, so any linearly ordered additive model is faithful.
`i64` amounts are modelled as `Int` (no claim touches overflow).
`HashMap<K, V>` is modelled as an insertion-ordered association list with the
usual replace-on-existing-key insert.
-/

namespace Auctions

/-- Timestamps are modelled as integers. -/
abbrev Timestamp := Int

/-- `Currency` from `src/money.rs`. -/
inductive Currency
  | VAC
  | SEK
  | DKK
deriving DecidableEq, Repr

/-- Position of a currency in its Rust declaration order; the derived Rust
`Ord` on the `Currency` enum compares by this index. -/
def Currency.idx : Currency → Nat
  | .VAC => 0
  | .SEK => 1
  | .DKK => 2

/-- `Amount` from `src/money.rs`: a currency-tagged integer value. -/
structure Amount where
  currency : Currency
  value : Int
deriving DecidableEq, Repr

/-- `Amount.new` from `src/money.rs`. -/
def Amount.new (currency : Currency) (value : Int) : Amount :=
  ⟨currency, value⟩

/-- The strict comparison of the derived Rust `Ord` on `Amount`
(lexicographic: currency declaration order first, then value), as used by
`b.bid_amount.cmp(&a.bid_amount)` in `single_sealed_bid.rs`. -/
def Amount.ltb (a b : Amount) : Bool :=
  if a.currency.idx < b.currency.idx then true
  else if b.currency.idx < a.currency.idx then false
  else decide (a.value < b.value)

abbrev UserId := String
abbrev AuctionId := Int

/-- `User` from `src/domain/core.rs`. -/
inductive User
  | BuyerOrSeller (user_id : UserId) (name : String)
  | Support (user_id : UserId)
deriving DecidableEq, Repr

/-- `User::user_id` from `src/domain/core.rs`. -/
def User.user_id : User → UserId
  | .BuyerOrSeller u _ => u
  | .Support u => u

/-- `Bid` from `src/domain/bids.rs`. The timestamp field `at` is a reserved
word in Lean and is rendered `at_`. -/
structure Bid where
  for_auction : AuctionId
  bidder : User
  at_ : Timestamp
  bid_amount : Amount
deriving DecidableEq, Repr

/-- `Errors` from `src/domain/core.rs`. `MustPlaceBidOverHighestBid` carries
the highest `Amount` as passed at its only construction site in
`timed_ascending.rs`; `CurrencyConversion` is the variant constructed in
`auctions.rs::validate_bid`. -/
inductive Errors
  | UnknownAuction (id : AuctionId)
  | AuctionAlreadyExists (id : AuctionId)
  | AuctionHasEnded (id : AuctionId)
  | AuctionHasNotStarted (id : AuctionId)
  | SellerCannotPlaceBids (p : UserId × AuctionId)
  | InvalidUserData (s : String)
  | MustPlaceBidOverHighestBid (a : Amount)
  | AlreadyPlacedBid
  | CurrencyConversion (c : Currency)
deriving DecidableEq, Repr

/-- `Options` for the timed-ascending auction, `src/domain/timed_ascending.rs`
(named `TAOptions` at its use site in `auctions.rs`). -/
structure TAOptions where
  reserve_price : Amount
  min_raise : Amount
  time_frame : Int
deriving DecidableEq, Repr

/-- `TimedAscendingState` from `src/domain/timed_ascending.rs`. -/
inductive TimedAscendingState
  | AwaitingStart (start : Timestamp) (starting_expiry : Timestamp)
      (options : TAOptions)
  | OnGoing (bids : List Bid) (next_expiry : Timestamp) (options : TAOptions)
  | HasEnded (bids : List Bid) (expiry : Timestamp) (options : TAOptions)
deriving DecidableEq, Repr

/-- `timed_ascending::empty_state`. -/
def timed_ascending.empty_state (start starting_expiry : Timestamp)
    (options : TAOptions) : TimedAscendingState :=
  .AwaitingStart start starting_expiry options

/-- `TimedAscendingState::inc` (impl of `State` in `timed_ascending.rs`). -/
def TimedAscendingState.inc (s : TimedAscendingState) (now : Timestamp) :
    TimedAscendingState :=
  match s with
  | .AwaitingStart start starting_expiry options =>
    if start < now then
      if now < starting_expiry then
        .OnGoing [] starting_expiry options
      else
        .HasEnded [] starting_expiry options
    else
      .AwaitingStart start starting_expiry options
  | .OnGoing bids next_expiry options =>
    if now < next_expiry then
      .OnGoing bids next_expiry options
    else
      .HasEnded bids next_expiry options
  | .HasEnded bids expiry options => .HasEnded bids expiry options

/-- `TimedAscendingState::add_bid` (impl of `State` in `timed_ascending.rs`).
`Vec::insert(0, bid)` on a clone of `bids` is list cons. -/
def TimedAscendingState.add_bid (s : TimedAscendingState) (bid : Bid) :
    TimedAscendingState × Except Errors Unit :=
  let now := bid.at_
  let auction_id := bid.for_auction
  let bid_amount := bid.bid_amount
  let next := s.inc now
  match next with
  | .AwaitingStart start starting_expiry options =>
    (.AwaitingStart start starting_expiry options,
     .error (.AuctionHasNotStarted auction_id))
  | .OnGoing bids next_expiry options =>
    let new_expiry := max next_expiry (now + options.time_frame)
    match bids with
    | [] =>
      (.OnGoing [bid] new_expiry options, .ok ())
    | highest_bid :: rest =>
      let highest_amount := highest_bid.bid_amount
      let min_raise := options.min_raise
      if highest_amount.value + min_raise.value ≤ bid_amount.value then
        (.OnGoing (bid :: highest_bid :: rest) new_expiry options, .ok ())
      else
        (.OnGoing (highest_bid :: rest) next_expiry options,
         .error (.MustPlaceBidOverHighestBid highest_amount))
  | .HasEnded bids expiry options =>
    (.HasEnded bids expiry options, .error (.AuctionHasEnded auction_id))

/-- `TimedAscendingState::get_bids`. -/
def TimedAscendingState.get_bids : TimedAscendingState → List Bid
  | .AwaitingStart _ _ _ => []
  | .OnGoing bids _ _ => bids
  | .HasEnded bids _ _ => bids

/-- `TimedAscendingState::try_get_amount_and_winner`. -/
def TimedAscendingState.try_get_amount_and_winner :
    TimedAscendingState → Option (Amount × UserId)
  | .HasEnded bids _ options =>
    match bids with
    | [] => none
    | bid :: _ =>
      if options.reserve_price.value < bid.bid_amount.value then
        some (bid.bid_amount, bid.bidder.user_id)
      else
        none
  | _ => none

/-- `TimedAscendingState::has_ended`. -/
def TimedAscendingState.has_ended : TimedAscendingState → Bool
  | .HasEnded _ _ _ => true
  | _ => false

/-- `Options` for the single-sealed-bid auction,
`src/domain/single_sealed_bid.rs` (named `SBOptions` in `auctions.rs`). -/
inductive SBOptions
  | Blind
  | Vickrey
deriving DecidableEq, Repr

/-- `HashMap<UserId, Bid>` modelled as an insertion-ordered association
list. -/
abbrev BidMap := List (UserId × Bid)

/-- `HashMap::contains_key`. -/
def BidMap.contains_key (m : BidMap) (k : UserId) : Bool :=
  m.any (fun p => p.1 = k)

/-- `HashMap::get` (used only to state retention of recorded bids). -/
def BidMap.lookup (m : BidMap) (k : UserId) : Option Bid :=
  match m with
  | [] => none
  | (k', v) :: rest => if k' = k then some v else BidMap.lookup rest k

/-- `HashMap::insert`: replace the value at an existing key, otherwise add the
binding (at the end, in the insertion-order model). -/
def BidMap.insert (m : BidMap) (k : UserId) (v : Bid) : BidMap :=
  match m with
  | [] => [(k, v)]
  | (k', v') :: rest =>
    if k' = k then (k, v) :: rest else (k', v') :: BidMap.insert rest k v

/-- `HashMap::values().cloned().collect::<Vec<_>>()`. -/
def BidMap.values (m : BidMap) : List Bid :=
  m.map Prod.snd

/-- Stable insertion into a descending-sorted list: skip while the resident
element is strictly greater (by the derived `Ord` on `Amount`), so an equal
element that arrived earlier stays in front. -/
def insert_bid_desc (x : Bid) : List Bid → List Bid
  | [] => [x]
  | y :: ys =>
    if Amount.ltb x.bid_amount y.bid_amount then
      y :: insert_bid_desc x ys
    else
      x :: y :: ys

/-- `sorted_bids.sort_by(|a, b| b.bid_amount.cmp(&a.bid_amount))` from
`single_sealed_bid.rs::inc`: Rust's `sort_by` is a stable sort, and the
stable descending sort of a list is unique, here computed by stable insertion
sort. -/
def sort_bids_desc : List Bid → List Bid
  | [] => []
  | x :: xs => insert_bid_desc x (sort_bids_desc xs)

/-- `SingleSealedBidState` from `src/domain/single_sealed_bid.rs`. -/
inductive SingleSealedBidState
  | AcceptingBids (bids : BidMap) (expiry : Timestamp) (options : SBOptions)
  | DisclosingBids (bids : List Bid) (expiry : Timestamp) (options : SBOptions)
deriving DecidableEq, Repr

/-- `single_sealed_bid::empty_state`. -/
def single_sealed_bid.empty_state (expiry : Timestamp) (options : SBOptions) :
    SingleSealedBidState :=
  .AcceptingBids [] expiry options

/-- `SingleSealedBidState::inc` (impl of `State` in `single_sealed_bid.rs`). -/
def SingleSealedBidState.inc (s : SingleSealedBidState) (now : Timestamp) :
    SingleSealedBidState :=
  match s with
  | .AcceptingBids bids expiry options =>
    if expiry ≤ now then
      .DisclosingBids (sort_bids_desc (BidMap.values bids)) expiry options
    else
      .AcceptingBids bids expiry options
  | .DisclosingBids bids expiry options => .DisclosingBids bids expiry options

/-- `SingleSealedBidState::add_bid`. -/
def SingleSealedBidState.add_bid (s : SingleSealedBidState) (bid : Bid) :
    SingleSealedBidState × Except Errors Unit :=
  let now := bid.at_
  let auction_id := bid.for_auction
  let user := bid.bidder.user_id
  let next := s.inc now
  match next with
  | .AcceptingBids bids expiry options =>
    if BidMap.contains_key bids user then
      (.AcceptingBids bids expiry options, .error .AlreadyPlacedBid)
    else
      (.AcceptingBids (BidMap.insert bids user bid) expiry options, .ok ())
  | .DisclosingBids bids expiry options =>
    (.DisclosingBids bids expiry options, .error (.AuctionHasEnded auction_id))

/-- `SingleSealedBidState::get_bids`. -/
def SingleSealedBidState.get_bids : SingleSealedBidState → List Bid
  | .DisclosingBids bids _ _ => bids
  | _ => []

/-- `SingleSealedBidState::try_get_amount_and_winner`. -/
def SingleSealedBidState.try_get_amount_and_winner :
    SingleSealedBidState → Option (Amount × UserId)
  | .AcceptingBids _ _ _ => none
  | .DisclosingBids bids _ options =>
    match bids with
    | [] => none
    | b1 :: rest =>
      match options with
      | .Vickrey =>
        match rest with
        | [] => some (b1.bid_amount, b1.bidder.user_id)
        | b2 :: _ => some (b2.bid_amount, b1.bidder.user_id)
      | .Blind => some (b1.bid_amount, b1.bidder.user_id)

/-- `SingleSealedBidState::has_ended`. -/
def SingleSealedBidState.has_ended : SingleSealedBidState → Bool
  | .AcceptingBids _ _ _ => false
  | .DisclosingBids _ _ _ => true

/-- Modelled from the spec: the disclosure computation of
`single_sealed_bid.rs::inc` on an explicit value-iteration order `l`. The
iteration order of std `HashMap::values()` is not in this repository and is
arbitrary (randomized per map instance); the spec only promises "ties keep
arbitrary but deterministic relative order". Any permutation of the recorded
bids is a possible iteration order `l`; `BidMap.values` realizes one such
permutation (insertion order). -/
def disclose_with_order (l : List Bid) (expiry : Timestamp)
    (options : SBOptions) : SingleSealedBidState :=
  .DisclosingBids (sort_bids_desc l) expiry options

/-- `AuctionType` from `src/domain/auctions.rs`. -/
inductive AuctionType
  | TimedAscending (opts : TAOptions)
  | SingleSealedBid (opts : SBOptions)
deriving DecidableEq, Repr

/-- `Auction` from `src/domain/auctions.rs`. -/
structure Auction where
  auction_id : AuctionId
  starts_at : Timestamp
  title : String
  expiry : Timestamp
  seller : User
  typ : AuctionType
  auction_currency : Currency
deriving DecidableEq, Repr

/-- `validate_bid` from `src/domain/auctions.rs`. -/
def validate_bid (bid : Bid) (auction : Auction) : Except Errors Unit :=
  if bid.bidder.user_id = auction.seller.user_id then
    .error (.SellerCannotPlaceBids (bid.bidder.user_id, auction.auction_id))
  else if bid.bid_amount.currency ≠ auction.auction_currency then
    .error (.CurrencyConversion auction.auction_currency)
  else
    .ok ()

/-- `AuctionState` from `src/domain/auctions.rs`. -/
inductive AuctionState
  | SingleSealedBid (s : SingleSealedBidState)
  | TimedAscending (s : TimedAscendingState)
deriving DecidableEq, Repr

/-- `empty_state` from `src/domain/auctions.rs`. -/
def empty_state (auction : Auction) : AuctionState :=
  match auction.typ with
  | .SingleSealedBid opt =>
    .SingleSealedBid (single_sealed_bid.empty_state auction.expiry opt)
  | .TimedAscending opt =>
    .TimedAscending
      (timed_ascending.empty_state auction.starts_at auction.expiry opt)

/-- `AuctionState::inc` (impl of `State` in `auctions.rs`). -/
def AuctionState.inc (s : AuctionState) (now : Timestamp) : AuctionState :=
  match s with
  | .SingleSealedBid st => .SingleSealedBid (st.inc now)
  | .TimedAscending st => .TimedAscending (st.inc now)

/-- `AuctionState::add_bid`. -/
def AuctionState.add_bid (s : AuctionState) (bid : Bid) :
    AuctionState × Except Errors Unit :=
  match s with
  | .SingleSealedBid st =>
    let (new_state, result) := st.add_bid bid
    (.SingleSealedBid new_state, result)
  | .TimedAscending st =>
    let (new_state, result) := st.add_bid bid
    (.TimedAscending new_state, result)

/-- `AuctionState::get_bids`. -/
def AuctionState.get_bids : AuctionState → List Bid
  | .SingleSealedBid st => st.get_bids
  | .TimedAscending st => st.get_bids

/-- `AuctionState::try_get_amount_and_winner`. -/
def AuctionState.try_get_amount_and_winner :
    AuctionState → Option (Amount × UserId)
  | .SingleSealedBid st => st.try_get_amount_and_winner
  | .TimedAscending st => st.try_get_amount_and_winner

/-- `AuctionState::has_ended`. -/
def AuctionState.has_ended : AuctionState → Bool
  | .SingleSealedBid st => st.has_ended
  | .TimedAscending st => st.has_ended

/-- `Repository = HashMap<AuctionId, (Auction, AuctionState)>` from
`src/domain/mod.rs`, modelled as an insertion-ordered association list. -/
abbrev Repository := List (AuctionId × Auction × AuctionState)

/-- `HashMap::contains_key` on the repository. -/
def Repository.contains_key (r : Repository) (k : AuctionId) : Bool :=
  r.any (fun p => p.1 = k)

/-- `HashMap::get` on the repository. -/
def Repository.get (r : Repository) (k : AuctionId) :
    Option (Auction × AuctionState) :=
  match r with
  | [] => none
  | (k', v) :: rest => if k' = k then some v else Repository.get rest k

/-- `HashMap::insert` on the repository: replace the entry at an existing key,
otherwise add the entry. -/
def Repository.insert (r : Repository) (k : AuctionId)
    (v : Auction × AuctionState) : Repository :=
  match r with
  | [] => [(k, v)]
  | (k', v') :: rest =>
    if k' = k then (k, v) :: rest else (k', v') :: Repository.insert rest k v

/-- `Command` from `src/domain/commands.rs`. -/
inductive Command
  | AddAuction (timestamp : Timestamp) (auction : Auction)
  | PlaceBid (timestamp : Timestamp) (bid : Bid)
deriving DecidableEq, Repr

/-- `CommandSuccess` from `src/domain/commands.rs`. -/
inductive CommandSuccess
  | AuctionAdded (timestamp : Timestamp) (auction : Auction)
  | BidAccepted (timestamp : Timestamp) (bid : Bid)
deriving DecidableEq, Repr

/-- `HandleError` from `src/domain/mod.rs`. -/
inductive HandleError
  | AuctionError (e : Errors)
deriving DecidableEq, Repr

/-- `handle` from `src/domain/mod.rs`. -/
def handle (command : Command) (repository : Repository) :
    Except HandleError (CommandSuccess × Repository) :=
  match command with
  | .AddAuction timestamp auction =>
    let auction_id := auction.auction_id
    if Repository.contains_key repository auction_id then
      .error (.AuctionError (.AuctionAlreadyExists auction_id))
    else
      .ok (.AuctionAdded timestamp auction,
           Repository.insert repository auction_id
             (auction, empty_state auction))
  | .PlaceBid timestamp bid =>
    let auction_id := bid.for_auction
    match Repository.get repository auction_id with
    | some (auction, state) =>
      match validate_bid bid auction with
      | .error e => .error (.AuctionError e)
      | .ok _ =>
        let (next_auction_state, bid_result) := state.add_bid bid
        match bid_result with
        | .error e => .error (.AuctionError e)
        | .ok _ =>
          .ok (.BidAccepted timestamp bid,
               Repository.insert repository auction_id
                 (auction, next_auction_state))
    | none => .error (.AuctionError (.UnknownAuction auction_id))

/-- Equality of `Except` results is decidable when it is on both sides;
used only to evaluate the embedded operations on concrete inputs. -/
instance {ε α : Type} [DecidableEq ε] [DecidableEq α] :
    DecidableEq (Except ε α) := fun a b =>
  match a, b with
  | .ok x, .ok y =>
    if h : x = y then isTrue (by rw [h])
    else isFalse (fun hc => h (Except.ok.inj hc))
  | .error x, .error y =>
    if h : x = y then isTrue (by rw [h])
    else isFalse (fun hc => h (Except.error.inj hc))
  | .ok _, .error _ => isFalse Except.noConfusion
  | .error _, .ok _ => isFalse Except.noConfusion

/-- The list is sorted in descending order of the derived Rust `Ord` on
`Amount` (the comparator used by `single_sealed_bid.rs::inc`). -/
def bids_sorted_desc (l : List Bid) : Prop :=
  List.Pairwise (fun a b => Amount.ltb a.bid_amount b.bid_amount = false) l

/-- The list is sorted in descending order of raw amount value (the ordering
named in the spec data model and used by the raise check in
`timed_ascending.rs::add_bid`). -/
def bids_sorted_desc_value (l : List Bid) : Prop :=
  List.Pairwise (fun a b => b.bid_amount.value ≤ a.bid_amount.value) l

/-- The options carried by a timed-ascending state (every constructor of
`TimedAscendingState` carries the `options` record unchanged). -/
def TimedAscendingState.options : TimedAscendingState → TAOptions
  | .AwaitingStart _ _ o => o
  | .OnGoing _ _ o => o
  | .HasEnded _ _ o => o

/-- States of the timed-ascending machine reachable from the initial
(`timed_ascending::empty_state`) state by time advances and accepted bids.
`acc` accumulates the accepted bids, most recently accepted first. -/
inductive ReachTA : TimedAscendingState → List Bid → Prop
  | init (start starting_expiry : Timestamp) (options : TAOptions) :
      ReachTA (timed_ascending.empty_state start starting_expiry options) []
  | step_inc {s : TimedAscendingState} {acc : List Bid} (t : Timestamp) :
      ReachTA s acc → ReachTA (s.inc t) acc
  | step_bid {s s' : TimedAscendingState} {acc : List Bid} (bid : Bid) :
      ReachTA s acc → s.add_bid bid = (s', .ok ()) → ReachTA s' (bid :: acc)

/-! Concrete sample values used by witnesses and counterexamples. -/

/-- Sample amount in the virtual auction currency. -/
def vac (v : Int) : Amount := ⟨.VAC, v⟩

def buyer1 : User := .BuyerOrSeller "buyer1" "Buyer One"

def buyer2 : User := .BuyerOrSeller "buyer2" "Buyer Two"

def seller1 : User := .BuyerOrSeller "seller1" "Seller One"

/-- Timed-ascending options with zero reserve, zero min raise, zero time
frame. -/
def opts_zero : TAOptions := ⟨vac 0, vac 0, 0⟩

/-- Timed-ascending options with a 20-second anti-snipe time frame. -/
def opts_snipe : TAOptions := ⟨vac 0, vac 0, 20⟩

/-- Pathological timed-ascending options with a negative min raise. -/
def opts_negraise : TAOptions := ⟨vac 0, vac (-5), 0⟩

def bid_a : Bid := ⟨1, buyer1, 1, vac 10⟩

def bid_b : Bid := ⟨1, buyer2, 2, vac 6⟩

/-- A bid equal to highest (10) plus min raise (0) of `opts_zero`. -/
def bid_eq : Bid := ⟨1, buyer2, 50, vac 10⟩

/-- A bid strictly below highest (10) plus min raise (0) of `opts_zero`. -/
def bid_low : Bid := ⟨1, buyer2, 50, vac 9⟩

/-- An on-going sample state holding the single bid `bid_a`, deadline 100. -/
def st_ongoing : TimedAscendingState := .OnGoing [bid_a] 100 opts_zero

def auc1 : Auction :=
  ⟨1, 0, "a1", 100, seller1, .TimedAscending opts_zero, .VAC⟩

def auc2 : Auction :=
  ⟨2, 0, "a2", 100, seller1, .SingleSealedBid .Blind, .VAC⟩

/-- Sample repository with a timed-ascending auction under key 1 and a
single-sealed-bid auction under key 2. -/
def repo1 : Repository :=
  [(1, auc1, .TimedAscending (.OnGoing [] 100 opts_zero)),
   (2, auc2, .SingleSealedBid (.AcceptingBids [] 100 .Blind))]

/-- A bid on auction 1 of `repo1` placed by a non-seller in the auction
currency at time 50, accepted as the first bid. -/
def bid_ok : Bid := ⟨1, buyer1, 50, vac 10⟩

/-- Sealed bids of equal amount from two distinct bidders. -/
def bid_u1 : Bid := ⟨2, buyer1, 3, vac 10⟩

def bid_u2 : Bid := ⟨2, buyer2, 4, vac 10⟩

/-- Sample sealed-bid map holding `bid_u1` then `bid_u2` (insertion order). -/
def map_u : BidMap := [("buyer1", bid_u1), ("buyer2", bid_u2)]

/-- A bid placed within the 20-second time frame of `opts_snipe` ahead of a
deadline at 100. -/
def bid_snipe : Bid := ⟨1, buyer2, 90, vac 10⟩

/-- A second sealed bid by `buyer1` (who already bid `bid_u1`). -/
def bid_dup : Bid := ⟨2, buyer1, 50, vac 99⟩

/-! Helper lemmas. -/

theorem Amount.ltb_iff (a b : Amount) :
    Amount.ltb a b = true ↔
      (a.currency.idx < b.currency.idx ∨
       (a.currency.idx = b.currency.idx ∧ a.value < b.value)) := by
  unfold Amount.ltb
  split_ifs with h1 h2 <;> simp <;> omega

theorem Amount.ltb_false_iff (a b : Amount) :
    Amount.ltb a b = false ↔
      (b.currency.idx < a.currency.idx ∨
       (a.currency.idx = b.currency.idx ∧ b.value ≤ a.value)) := by
  rw [← Bool.not_eq_true, Amount.ltb_iff]
  constructor <;> intro h <;> omega

theorem Amount.ltb_asymm {a b : Amount} (h : Amount.ltb a b = true) :
    Amount.ltb b a = false := by
  rw [Amount.ltb_iff] at h
  rw [Amount.ltb_false_iff]
  omega

theorem Amount.ltb_false_trans {a b c : Amount}
    (hab : Amount.ltb a b = false) (hbc : Amount.ltb b c = false) :
    Amount.ltb a c = false := by
  rw [Amount.ltb_false_iff] at hab hbc ⊢
  omega

theorem Amount.ltb_true_of_eq_ne {a b : Amount}
    (h : Amount.ltb a b = true) : a ≠ b := by
  intro heq
  subst heq
  rw [Amount.ltb_iff] at h
  omega

theorem insert_bid_desc_perm (x : Bid) (l : List Bid) :
    (insert_bid_desc x l).Perm (x :: l) := by
  induction l with
  | nil => exact List.Perm.refl _
  | cons y ys ih =>
    simp only [insert_bid_desc]
    split_ifs with h
    · exact (ih.cons y).trans (List.Perm.swap x y ys)
    · exact List.Perm.refl _

theorem sort_bids_desc_perm (l : List Bid) : (sort_bids_desc l).Perm l := by
  induction l with
  | nil => exact List.Perm.refl _
  | cons x xs ih =>
    exact (insert_bid_desc_perm x (sort_bids_desc xs)).trans (ih.cons x)

theorem insert_bid_desc_sorted {x : Bid} {l : List Bid}
    (h : bids_sorted_desc l) : bids_sorted_desc (insert_bid_desc x l) := by
  induction l with
  | nil =>
    exact List.pairwise_singleton _ _
  | cons y ys ih =>
    rw [bids_sorted_desc, List.pairwise_cons] at h
    obtain ⟨hy, hys⟩ := h
    simp only [insert_bid_desc]
    split_ifs with hxy
    · rw [bids_sorted_desc, List.pairwise_cons]
      refine ⟨?_, ih hys⟩
      intro z hz
      have hz' : z ∈ x :: ys := (insert_bid_desc_perm x ys).mem_iff.mp hz
      rcases List.mem_cons.mp hz' with hz' | hz'
      · subst hz'
        exact Amount.ltb_asymm hxy
      · exact hy z hz'
    · have hxy' : Amount.ltb x.bid_amount y.bid_amount = false := by
        simpa using hxy
      rw [bids_sorted_desc, List.pairwise_cons]
      refine ⟨?_, ?_⟩
      · intro z hz
        rcases List.mem_cons.mp hz with hz | hz
        · subst hz
          exact hxy'
        · exact Amount.ltb_false_trans hxy' (hy z hz)
      · exact List.Pairwise.cons hy hys

theorem sort_bids_desc_sorted (l : List Bid) :
    bids_sorted_desc (sort_bids_desc l) := by
  induction l with
  | nil => exact List.Pairwise.nil
  | cons x xs ih => exact insert_bid_desc_sorted ih

theorem insert_bid_desc_filter_amount (x : Bid) (l : List Bid) (a : Amount) :
    (insert_bid_desc x l).filter (fun b => decide (b.bid_amount = a)) =
      (x :: l).filter (fun b => decide (b.bid_amount = a)) := by
  induction l with
  | nil => rfl
  | cons y ys ih =>
    simp only [insert_bid_desc]
    split_ifs with hxy
    · by_cases hx : x.bid_amount = a
      · have hy : y.bid_amount ≠ a := by
          intro hya
          have hcc : Amount.ltb a a = true := by rw [hx, hya] at hxy; exact hxy
          exact Amount.ltb_true_of_eq_ne hcc rfl
        simp [List.filter_cons, hx, hy, ih]
      · simp [List.filter_cons, hx, ih]
    · rfl

theorem sort_bids_desc_filter_amount (l : List Bid) (a : Amount) :
    (sort_bids_desc l).filter (fun b => decide (b.bid_amount = a)) =
      l.filter (fun b => decide (b.bid_amount = a)) := by
  induction l with
  | nil => rfl
  | cons x xs ih =>
    rw [sort_bids_desc, insert_bid_desc_filter_amount]
    simp only [List.filter_cons, ih]

theorem BidMap.lookup_contains {m : BidMap} {k : UserId} {v : Bid}
    (h : BidMap.lookup m k = some v) : BidMap.contains_key m k = true := by
  induction m with
  | nil => simp [BidMap.lookup] at h
  | cons p rest ih =>
    obtain ⟨k', v'⟩ := p
    rw [BidMap.lookup] at h
    by_cases hk : k' = k
    · rw [BidMap.contains_key, List.any_cons]
      simp [hk]
    · rw [if_neg hk] at h
      have hrest := ih h
      rw [BidMap.contains_key] at hrest ⊢
      rw [List.any_cons, hrest, Bool.or_true]

theorem Repository.get_insert_self (r : Repository) (k : AuctionId)
    (v : Auction × AuctionState) :
    Repository.get (Repository.insert r k v) k = some v := by
  induction r with
  | nil => simp [Repository.insert, Repository.get]
  | cons p rest ih =>
    obtain ⟨k', v'⟩ := p
    rw [Repository.insert]
    by_cases hk : k' = k
    · rw [if_pos hk, Repository.get, if_pos rfl]
    · rw [if_neg hk, Repository.get, if_neg hk, ih]

theorem Repository.get_insert_ne (r : Repository) (k : AuctionId)
    (v : Auction × AuctionState) {j : AuctionId} (hj : j ≠ k) :
    Repository.get (Repository.insert r k v) j = Repository.get r j := by
  induction r with
  | nil =>
    simp [Repository.insert, Repository.get, Ne.symm hj]
  | cons p rest ih =>
    obtain ⟨k', v'⟩ := p
    rw [Repository.insert]
    by_cases hk : k' = k
    · subst hk
      rw [if_pos rfl, Repository.get, Repository.get, if_neg (Ne.symm hj),
        if_neg (Ne.symm hj)]
    · rw [if_neg hk, Repository.get, Repository.get]
      by_cases hkj : k' = j
      · rw [if_pos hkj, if_pos hkj]
      · rw [if_neg hkj, if_neg hkj, ih]

theorem ta_inc_idem (s : TimedAscendingState)
    (t : Timestamp) : (s.inc t).inc t = s.inc t := by
  cases s with
  | AwaitingStart start se opts =>
    rw [TimedAscendingState.inc]
    split_ifs with h1 h2
    · rw [TimedAscendingState.inc, if_pos h2]
    · rfl
    · rw [TimedAscendingState.inc, if_neg h1]
  | OnGoing bids e opts =>
    rw [TimedAscendingState.inc]
    split_ifs with h1
    · rw [TimedAscendingState.inc, if_pos h1]
    · rfl
  | HasEnded bids e opts => rfl

theorem sb_inc_idem (s : SingleSealedBidState)
    (t : Timestamp) : (s.inc t).inc t = s.inc t := by
  cases s with
  | AcceptingBids bids e opts =>
    rw [SingleSealedBidState.inc]
    split_ifs with h1
    · rfl
    · rw [SingleSealedBidState.inc, if_neg h1]
  | DisclosingBids bids e opts => rfl

theorem TimedAscendingState.get_bids_inc (s : TimedAscendingState)
    (t : Timestamp) : (s.inc t).get_bids = s.get_bids := by
  cases s with
  | AwaitingStart start se opts =>
    rw [TimedAscendingState.inc]
    split_ifs <;> rfl
  | OnGoing bids e opts =>
    rw [TimedAscendingState.inc]
    split_ifs <;> rfl
  | HasEnded bids e opts => rfl

theorem TimedAscendingState.options_inc (s : TimedAscendingState)
    (t : Timestamp) : (s.inc t).options = s.options := by
  cases s with
  | AwaitingStart start se opts =>
    rw [TimedAscendingState.inc]
    split_ifs <;> rfl
  | OnGoing bids e opts =>
    rw [TimedAscendingState.inc]
    split_ifs <;> rfl
  | HasEnded bids e opts => rfl

theorem TimedAscendingState.add_bid_ok_shape {s s' : TimedAscendingState}
    {bid : Bid} (h : s.add_bid bid = (s', .ok ())) :
    (∃ e, s' = .OnGoing (bid :: s.get_bids) e s.options) ∧
      (∀ hb rest, s.get_bids = hb :: rest →
        hb.bid_amount.value + s.options.min_raise.value ≤
          bid.bid_amount.value) := by
  cases hn : s.inc bid.at_ with
  | AwaitingStart a b c =>
    simp only [TimedAscendingState.add_bid, hn] at h
    exact absurd (congrArg Prod.snd h) (by simp)
  | OnGoing bids1 e1 o1 =>
    have hgb2 : s.get_bids = bids1 := by
      rw [← TimedAscendingState.get_bids_inc s bid.at_, hn]
      rfl
    have hop2 : s.options = o1 := by
      rw [← TimedAscendingState.options_inc s bid.at_, hn]
      rfl
    cases bids1 with
    | nil =>
      simp only [TimedAscendingState.add_bid, hn] at h
      have hs' : s' = .OnGoing [bid] (max e1 (bid.at_ + o1.time_frame)) o1 :=
        (congrArg Prod.fst h).symm
      refine ⟨⟨max e1 (bid.at_ + o1.time_frame), ?_⟩, ?_⟩
      · rw [hs', hgb2, hop2]
      · intro hb rest hbr
        rw [hgb2] at hbr
        exact absurd hbr (by simp)
    | cons hb1 rest1 =>
      simp only [TimedAscendingState.add_bid, hn] at h
      by_cases hraise :
          hb1.bid_amount.value + o1.min_raise.value ≤ bid.bid_amount.value
      · rw [if_pos hraise] at h
        have hs' : s' = .OnGoing (bid :: hb1 :: rest1)
            (max e1 (bid.at_ + o1.time_frame)) o1 :=
          (congrArg Prod.fst h).symm
        refine ⟨⟨max e1 (bid.at_ + o1.time_frame), ?_⟩, ?_⟩
        · rw [hs', hgb2, hop2]
        · intro hb rest hbr
          rw [hgb2] at hbr
          injection hbr with hhb hrest
          rw [← hhb, hop2]
          exact hraise
      · rw [if_neg hraise] at h
        exact absurd (congrArg Prod.snd h) (by simp)
  | HasEnded a b c =>
    simp only [TimedAscendingState.add_bid, hn] at h
    exact absurd (congrArg Prod.snd h) (by simp)

/-! Claim theorems. -/

/-- C6: time-advance is idempotent: for every auction state `s` of either
state machine and every timestamp `t`, `inc (inc s t) t = inc s t`. -/
theorem C6_inc_idempotent (s : AuctionState) (t : Timestamp) :
    (s.inc t).inc t = s.inc t := by
  cases s with
  | SingleSealedBid st =>
    simp only [AuctionState.inc, sb_inc_idem]
  | TimedAscending st =>
    simp only [AuctionState.inc, ta_inc_idem]

/-- C3: for a timed-ascending state, `try_get_amount_and_winner` returns
`some (amount, winner)` exactly when the state is `HasEnded` with a non-empty
bid list whose top bid strictly exceeds the reserve price by value; the
winner is the top bidder and the amount is the top bid's own amount. In
particular a top bid equal to the reserve price yields `none`, and
`AwaitingStart`/`OnGoing` always yield `none`. -/
theorem C3_ta_winner (s : TimedAscendingState) (a : Amount) (w : UserId) :
    s.try_get_amount_and_winner = some (a, w) ↔
      ∃ b rest e opts, s = .HasEnded (b :: rest) e opts ∧
        opts.reserve_price.value < b.bid_amount.value ∧
        a = b.bid_amount ∧ w = b.bidder.user_id := by
  constructor
  · intro h
    cases s with
    | AwaitingStart start se opts =>
      simp [TimedAscendingState.try_get_amount_and_winner] at h
    | OnGoing bids e opts =>
      simp [TimedAscendingState.try_get_amount_and_winner] at h
    | HasEnded bids e opts =>
      cases bids with
      | nil => simp [TimedAscendingState.try_get_amount_and_winner] at h
      | cons b rest =>
        simp only [TimedAscendingState.try_get_amount_and_winner] at h
        split_ifs at h with hres
        simp only [Option.some.injEq, Prod.mk.injEq] at h
        exact ⟨b, rest, e, opts, rfl, hres, h.1.symm, h.2.symm⟩
  · rintro ⟨b, rest, e, opts, rfl, hres, rfl, rfl⟩
    simp [TimedAscendingState.try_get_amount_and_winner, hres]

/-- C4: for a single-sealed-bid state, `try_get_amount_and_winner` returns
`some` exactly in `DisclosingBids` with a non-empty bid list; the winner is
the first (highest) bidder, and the price is the winner's own amount under
`Blind`, the winner's own amount under `Vickrey` with exactly one bid, and
the second bid's amount under `Vickrey` with two or more bids. -/
theorem C4_sb_winner (s : SingleSealedBidState) (a : Amount) (w : UserId) :
    s.try_get_amount_and_winner = some (a, w) ↔
      ∃ b rest e opts, s = .DisclosingBids (b :: rest) e opts ∧
        w = b.bidder.user_id ∧
        a = (match opts, rest with
             | SBOptions.Blind, _ => b.bid_amount
             | SBOptions.Vickrey, [] => b.bid_amount
             | SBOptions.Vickrey, b2 :: _ => b2.bid_amount) := by
  constructor
  · intro h
    cases s with
    | AcceptingBids bids e opts =>
      simp [SingleSealedBidState.try_get_amount_and_winner] at h
    | DisclosingBids bids e opts =>
      cases bids with
      | nil => simp [SingleSealedBidState.try_get_amount_and_winner] at h
      | cons b rest =>
        cases opts with
        | Blind =>
          simp only [SingleSealedBidState.try_get_amount_and_winner,
            Option.some.injEq, Prod.mk.injEq] at h
          exact ⟨b, rest, e, .Blind, rfl, h.2.symm, h.1.symm⟩
        | Vickrey =>
          cases rest with
          | nil =>
            simp only [SingleSealedBidState.try_get_amount_and_winner,
              Option.some.injEq, Prod.mk.injEq] at h
            exact ⟨b, [], e, .Vickrey, rfl, h.2.symm, h.1.symm⟩
          | cons b2 rest2 =>
            simp only [SingleSealedBidState.try_get_amount_and_winner,
              Option.some.injEq, Prod.mk.injEq] at h
            exact ⟨b, b2 :: rest2, e, .Vickrey, rfl, h.2.symm, h.1.symm⟩
  · rintro ⟨b, rest, e, opts, rfl, rfl, rfl⟩
    cases opts with
    | Blind => simp [SingleSealedBidState.try_get_amount_and_winner]
    | Vickrey =>
      cases rest with
      | nil => simp [SingleSealedBidState.try_get_amount_and_winner]
      | cons b2 rest2 =>
        simp [SingleSealedBidState.try_get_amount_and_winner]

/-- C10: in `AcceptingBids` the sealed machine's `get_bids` is the empty
list no matter what bids have been recorded; once time-advance at
`now >= expiry` moves the state to `DisclosingBids`, `get_bids` exposes a
permutation of the recorded bids. -/
theorem C10_sealed_bids_hidden (bids : BidMap) (e : Timestamp)
    (opts : SBOptions) (now : Timestamp) :
    (SingleSealedBidState.AcceptingBids bids e opts).get_bids = [] ∧
    (e ≤ now →
      ((SingleSealedBidState.AcceptingBids bids e opts).inc now).get_bids.Perm
        (BidMap.values bids)) := by
  refine ⟨rfl, ?_⟩
  intro h
  rw [SingleSealedBidState.inc, if_pos h]
  show (sort_bids_desc (BidMap.values bids)).Perm (BidMap.values bids)
  exact sort_bids_desc_perm _

/-- Witness for C10 on a concrete two-bid map at its expiry. -/
theorem C10_witness :
    (SingleSealedBidState.AcceptingBids map_u 100 .Blind).get_bids = [] ∧
    ((SingleSealedBidState.AcceptingBids map_u 100 .Blind).inc 100).get_bids.Perm
      (BidMap.values map_u) :=
  ⟨(C10_sealed_bids_hidden map_u 100 .Blind 100).1,
   (C10_sealed_bids_hidden map_u 100 .Blind 100).2 (by decide)⟩

/-- C2: if processing a bid leaves the timed-ascending machine `OnGoing`
with at least one prior bid, `add_bid` rejects a bid whose amount is
strictly below highest + min_raise with `MustPlaceBidOverHighestBid`
carrying the current highest amount, and accepts a bid exactly equal to
highest + min_raise. -/
theorem C2_raise_enforcement (s : TimedAscendingState) (bid b : Bid)
    (rest : List Bid) (e : Timestamp) (opts : TAOptions)
    (h : s.inc bid.at_ = .OnGoing (b :: rest) e opts) :
    (bid.bid_amount.value < b.bid_amount.value + opts.min_raise.value →
      s.add_bid bid =
        (.OnGoing (b :: rest) e opts,
         .error (.MustPlaceBidOverHighestBid b.bid_amount))) ∧
    (bid.bid_amount.value = b.bid_amount.value + opts.min_raise.value →
      s.add_bid bid =
        (.OnGoing (bid :: b :: rest) (max e (bid.at_ + opts.time_frame)) opts,
         .ok ())) := by
  constructor
  · intro hlt
    simp only [TimedAscendingState.add_bid, h]
    rw [if_neg (by omega)]
  · intro heq
    simp only [TimedAscendingState.add_bid, h]
    rw [if_pos (by omega)]

/-- Witness for C2: with highest bid 10 and min raise 0, a bid of 9 is
rejected carrying the highest amount 10, and a bid of exactly 10 is
accepted. -/
theorem C2_witness :
    st_ongoing.add_bid bid_low =
      (st_ongoing, .error (.MustPlaceBidOverHighestBid (vac 10))) ∧
    st_ongoing.add_bid bid_eq =
      (.OnGoing [bid_eq, bid_a] (max 100 (bid_eq.at_ + opts_zero.time_frame))
        opts_zero, .ok ()) :=
  ⟨(C2_raise_enforcement st_ongoing bid_low bid_a [] 100 opts_zero
      (by decide)).1 (by decide),
   (C2_raise_enforcement st_ongoing bid_eq bid_a [] 100 opts_zero
      (by decide)).2 (by decide)⟩

/-- C5: whenever `add_bid` accepts a bid on an `OnGoing` state with deadline
`d`, the new state is `OnGoing` with the bid prepended and next expiry
`max d (bid.at + time_frame)`. -/
theorem C5_anti_snipe (bids : List Bid) (d : Timestamp) (opts : TAOptions)
    (bid : Bid) (s' : TimedAscendingState)
    (h : (TimedAscendingState.OnGoing bids d opts).add_bid bid =
      (s', .ok ())) :
    s' = .OnGoing (bid :: bids) (max d (bid.at_ + opts.time_frame)) opts := by
  by_cases hlt : bid.at_ < d
  · cases bids with
    | nil =>
      have hinc : (TimedAscendingState.OnGoing [] d opts).inc bid.at_ =
          .OnGoing [] d opts := by
        rw [TimedAscendingState.inc, if_pos hlt]
      simp only [TimedAscendingState.add_bid, hinc] at h
      exact (congrArg Prod.fst h).symm
    | cons b1 r1 =>
      have hinc : (TimedAscendingState.OnGoing (b1 :: r1) d opts).inc bid.at_ =
          .OnGoing (b1 :: r1) d opts := by
        rw [TimedAscendingState.inc, if_pos hlt]
      simp only [TimedAscendingState.add_bid, hinc] at h
      by_cases hraise :
          b1.bid_amount.value + opts.min_raise.value ≤ bid.bid_amount.value
      · rw [if_pos hraise] at h
        exact (congrArg Prod.fst h).symm
      · rw [if_neg hraise] at h
        exact absurd (congrArg Prod.snd h) (by simp)
  · have hinc : (TimedAscendingState.OnGoing bids d opts).inc bid.at_ =
        .HasEnded bids d opts := by
      rw [TimedAscendingState.inc, if_neg hlt]
    simp only [TimedAscendingState.add_bid, hinc] at h
    exact absurd (congrArg Prod.snd h) (by simp)

/-- Witness for C5: a bid at time 90 against deadline 100 with a 20-second
time frame extends the deadline to 110 = max 100 (90 + 20). -/
theorem C5_witness :
    (TimedAscendingState.OnGoing [bid_snipe, bid_a] 110 opts_snipe :
        TimedAscendingState) =
      .OnGoing (bid_snipe :: [bid_a])
        (max 100 (bid_snipe.at_ + opts_snipe.time_frame)) opts_snipe :=
  C5_anti_snipe [bid_a] 100 opts_snipe bid_snipe _ (by decide)

/-- C7: if processing a bid leaves the sealed machine `AcceptingBids` with a
bid already recorded under the bidder's id, `add_bid` fails with
`AlreadyPlacedBid` regardless of the new bid's amount and returns the state
with the same bid map, so the recorded bid is retained unchanged. -/
theorem C7_already_placed (s : SingleSealedBidState) (m : BidMap)
    (e : Timestamp) (opts : SBOptions) (bid : Bid) (old : Bid)
    (h : s.inc bid.at_ = .AcceptingBids m e opts)
    (hold : BidMap.lookup m bid.bidder.user_id = some old) :
    s.add_bid bid = (.AcceptingBids m e opts, .error .AlreadyPlacedBid) := by
  simp only [SingleSealedBidState.add_bid, h]
  rw [if_pos (BidMap.lookup_contains hold)]

/-- Witness for C7: `buyer1` already recorded `bid_u1`; a later bid by
`buyer1` with a different amount is rejected and the map is unchanged. -/
theorem C7_witness :
    (SingleSealedBidState.AcceptingBids [("buyer1", bid_u1)] 100
        .Blind).add_bid bid_dup =
      (.AcceptingBids [("buyer1", bid_u1)] 100 .Blind,
       .error .AlreadyPlacedBid) :=
  C7_already_placed _ _ 100 .Blind bid_dup bid_u1 (by decide) (by decide)

/-- Counterexample for C8 as stated: the map `map_u` records `bid_u1` then
`bid_u2` (insertion order `[bid_u1, bid_u2]`, equal amounts). The iteration
order of std `HashMap::values()` is arbitrary, so the permutation
`[bid_u2, bid_u1]` is a possible iteration order; disclosing it keeps the
equal-amount bids in that order, which is not their insertion order. -/
theorem C8_counterexample :
    [bid_u2, bid_u1].Perm (BidMap.values map_u) ∧
    bid_u1.bid_amount = bid_u2.bid_amount ∧
    disclose_with_order [bid_u2, bid_u1] 10 .Blind =
      .DisclosingBids [bid_u2, bid_u1] 10 .Blind ∧
    [bid_u2, bid_u1] ≠ BidMap.values map_u :=
  ⟨List.Perm.swap bid_u1 bid_u2 [], by decide, by decide, by decide⟩

/-- C8 (amended): advancing an `AcceptingBids` state at `now >= expiry`
discloses the stable descending sort of the recorded bids as yielded by the
map iteration: for every possible iteration order `l` (any permutation of
the recorded values), the disclosed sequence is a permutation of the
recorded bids, sorted by descending amount, and bids of any fixed amount
keep the relative order of `l` — the iteration order, not necessarily
insertion order. The model's `inc` realizes the insertion-order instance
`BidMap.values`. -/
theorem C8_disclosure_sorted_amended (bids : BidMap) (e : Timestamp)
    (opts : SBOptions) (now : Timestamp) (l : List Bid) (h : e ≤ now)
    (hl : l.Perm (BidMap.values bids)) :
    (SingleSealedBidState.AcceptingBids bids e opts).inc now =
      disclose_with_order (BidMap.values bids) e opts ∧
    disclose_with_order l e opts = .DisclosingBids (sort_bids_desc l) e opts ∧
    (sort_bids_desc l).Perm (BidMap.values bids) ∧
    bids_sorted_desc (sort_bids_desc l) ∧
    ∀ a : Amount,
      (sort_bids_desc l).filter (fun bd => decide (bd.bid_amount = a)) =
        l.filter (fun bd => decide (bd.bid_amount = a)) := by
  refine ⟨?_, rfl, (sort_bids_desc_perm l).trans hl, sort_bids_desc_sorted l,
    fun a => sort_bids_desc_filter_amount l a⟩
  rw [SingleSealedBidState.inc, if_pos h]
  rfl

/-- Witness for C8 (amended) on the reversed iteration order of a concrete
two-bid map with equal amounts. -/
theorem C8_witness_amended :
    (SingleSealedBidState.AcceptingBids map_u 10 .Blind).inc 10 =
      disclose_with_order (BidMap.values map_u) 10 .Blind ∧
    (sort_bids_desc [bid_u2, bid_u1]).filter
        (fun bd => decide (bd.bid_amount = vac 10)) =
      [bid_u2, bid_u1].filter (fun bd => decide (bd.bid_amount = vac 10)) :=
  ⟨(C8_disclosure_sorted_amended map_u 10 .Blind 10 [bid_u2, bid_u1]
      (by decide) (List.Perm.swap bid_u1 bid_u2 [])).1,
   (C8_disclosure_sorted_amended map_u 10 .Blind 10 [bid_u2, bid_u1]
      (by decide) (List.Perm.swap bid_u1 bid_u2 [])).2.2.2.2 (vac 10)⟩

/-- C1: `handle` on `PlaceBid` fails `UnknownAuction` when the auction id is
absent; otherwise it fails `SellerCannotPlaceBids` when bidder and seller
ids coincide, then `CurrencyConversion` when the bid currency differs from
the auction currency, then whatever error `add_bid` returns; every failure
returns an error (so no repository entry is replaced); on success the entry
for the auction id is replaced by the new state, all other entries are
unchanged, and `BidAccepted` is returned. -/
theorem C1_place_bid_handler (ts : Timestamp) (bid : Bid)
    (repo : Repository) :
    match Repository.get repo bid.for_auction with
    | none =>
      handle (.PlaceBid ts bid) repo =
        .error (.AuctionError (.UnknownAuction bid.for_auction))
    | some (auction, state) =>
      (bid.bidder.user_id = auction.seller.user_id →
        handle (.PlaceBid ts bid) repo =
          .error (.AuctionError (.SellerCannotPlaceBids
            (bid.bidder.user_id, auction.auction_id)))) ∧
      (bid.bidder.user_id ≠ auction.seller.user_id →
        bid.bid_amount.currency ≠ auction.auction_currency →
        handle (.PlaceBid ts bid) repo =
          .error (.AuctionError
            (.CurrencyConversion auction.auction_currency))) ∧
      (bid.bidder.user_id ≠ auction.seller.user_id →
        bid.bid_amount.currency = auction.auction_currency →
        (∀ s2 err, state.add_bid bid = (s2, .error err) →
          handle (.PlaceBid ts bid) repo = .error (.AuctionError err)) ∧
        (∀ s2, state.add_bid bid = (s2, .ok ()) →
          handle (.PlaceBid ts bid) repo =
            .ok (.BidAccepted ts bid,
                 Repository.insert repo bid.for_auction (auction, s2)) ∧
          Repository.get
              (Repository.insert repo bid.for_auction (auction, s2))
              bid.for_auction = some (auction, s2) ∧
          ∀ j, j ≠ bid.for_auction →
            Repository.get
                (Repository.insert repo bid.for_auction (auction, s2)) j =
              Repository.get repo j)) := by
  cases hget : Repository.get repo bid.for_auction with
  | none => simp only [handle, hget]
  | some p =>
    obtain ⟨auction, state⟩ := p
    refine ⟨?_, ?_, ?_⟩
    · intro hsell
      simp [handle, hget, validate_bid, hsell]
    · intro hsell hcur
      simp [handle, hget, validate_bid, hsell, hcur]
    · intro hsell hcur
      constructor
      · intro s2 err hab
        simp [handle, hget, validate_bid, hsell, hcur, hab]
      · intro s2 hab
        refine ⟨?_, Repository.get_insert_self repo bid.for_auction _,
          fun j hj => Repository.get_insert_ne repo bid.for_auction _ hj⟩
        simp [handle, hget, validate_bid, hsell, hcur, hab]

/-- Witness for C1: placing a valid first bid on auction 1 of the two-entry
repository `repo1` succeeds, replaces the entry under key 1 and leaves the
entry under key 2 unchanged. -/
theorem C1_witness :
    handle (.PlaceBid 0 bid_ok) repo1 =
      .ok (.BidAccepted 0 bid_ok,
           Repository.insert repo1 1
             (auc1, .TimedAscending
               (.OnGoing [bid_ok] (max 100 (bid_ok.at_ + opts_zero.time_frame))
                 opts_zero))) ∧
    Repository.get
        (Repository.insert repo1 1
          (auc1, .TimedAscending
            (.OnGoing [bid_ok] (max 100 (bid_ok.at_ + opts_zero.time_frame))
              opts_zero))) 2 =
      Repository.get repo1 2 := by
  have h := (C1_place_bid_handler 0 bid_ok repo1).2.2 (by decide) (by decide)
  have hok := h.2
    (.TimedAscending
      (.OnGoing [bid_ok] (max 100 (bid_ok.at_ + opts_zero.time_frame))
        opts_zero))
    (by decide)
  exact ⟨hok.1, hok.2.2 2 (by decide)⟩

/-- C9 (amended): every timed-ascending state reached from the initial state
by time advances and accepted bids has `get_bids` equal to the accepted bids
most recently accepted first, and when the auction's min raise is
non-negative that list is sorted by descending amount value. -/
theorem C9_ordering_invariant (s : TimedAscendingState) (acc : List Bid)
    (hreach : ReachTA s acc) :
    s.get_bids = acc ∧
    (0 ≤ s.options.min_raise.value → bids_sorted_desc_value acc) := by
  induction hreach with
  | init start se opts => exact ⟨rfl, fun _ => List.Pairwise.nil⟩
  | step_inc t hr ih =>
    refine ⟨?_, ?_⟩
    · rw [TimedAscendingState.get_bids_inc]
      exact ih.1
    · rw [TimedAscendingState.options_inc]
      exact ih.2
  | step_bid bid hr hab ih =>
    rename_i s1 s1' acc1
    obtain ⟨⟨e, hs'⟩, hraise⟩ := TimedAscendingState.add_bid_ok_shape hab
    refine ⟨?_, ?_⟩
    · rw [hs']
      show bid :: s1.get_bids = bid :: acc1
      rw [ih.1]
    · intro hmr
      rw [hs'] at hmr
      have hmr' : 0 ≤ s1.options.min_raise.value := hmr
      have hsorted := ih.2 hmr'
      rw [bids_sorted_desc_value, List.pairwise_cons]
      refine ⟨?_, hsorted⟩
      intro z hz
      cases hacc : acc1 with
      | nil =>
        rw [hacc] at hz
        simp at hz
      | cons hb rest =>
        have hb_le : hb.bid_amount.value + s1.options.min_raise.value ≤
            bid.bid_amount.value :=
          hraise hb rest (by rw [ih.1, hacc])
        rw [hacc] at hz hsorted
        rcases List.mem_cons.mp hz with hz | hz
        · subst hz
          omega
        · have hzh : z.bid_amount.value ≤ hb.bid_amount.value := by
            rw [bids_sorted_desc_value, List.pairwise_cons] at hsorted
            exact hsorted.1 z hz
          omega

/-- Witness for C9 on a concrete reachable state: start, advance past the
start time, accept one bid. -/
theorem C9_witness :
    (TimedAscendingState.OnGoing [bid_a] 100 opts_zero).get_bids = [bid_a] ∧
    bids_sorted_desc_value [bid_a] := by
  have h0 : ReachTA (timed_ascending.empty_state 0 100 opts_zero) [] :=
    ReachTA.init 0 100 opts_zero
  have h1 : ReachTA (.OnGoing [] 100 opts_zero) [] := ReachTA.step_inc 1 h0
  have h2 : ReachTA (.OnGoing [bid_a] 100 opts_zero) [bid_a] :=
    ReachTA.step_bid bid_a h1 (by decide)
  exact ⟨(C9_ordering_invariant _ _ h2).1,
    (C9_ordering_invariant _ _ h2).2 (by decide)⟩

/-- Counterexample for C9 as stated: with a negative min raise (which no
rule excludes), a lower later bid is accepted, so a reachable state has
`get_bids` not sorted by descending amount (`[6, 10]`). -/
theorem C9_counterexample :
    ReachTA (.OnGoing [bid_b, bid_a] 100 opts_negraise) [bid_b, bid_a] ∧
    (TimedAscendingState.OnGoing [bid_b, bid_a] 100 opts_negraise).get_bids =
      [bid_b, bid_a] ∧
    ¬ bids_sorted_desc_value
        (TimedAscendingState.OnGoing [bid_b, bid_a] 100
          opts_negraise).get_bids := by
  refine ⟨?_, rfl, ?_⟩
  · have h0 : ReachTA (timed_ascending.empty_state 0 100 opts_negraise) [] :=
      ReachTA.init 0 100 opts_negraise
    have h1 : ReachTA (.OnGoing [] 100 opts_negraise) [] :=
      ReachTA.step_inc 1 h0
    have h2 : ReachTA (.OnGoing [bid_a] 100 opts_negraise) [bid_a] :=
      ReachTA.step_bid bid_a h1 (by decide)
    exact ReachTA.step_bid bid_b h2 (by decide)
  · simp only [bids_sorted_desc_value, TimedAscendingState.get_bids]
    decide

end Auctions
